import Mathlib

/-!
Verification of the solhop-types repository: the `Var`/`Lit` bit-packed
literal encoding from `src/lib.rs` and the DIMACS CNF/WCNF parser from
`src/dimacs.rs`, embedded shallowly.

Machine-integer conventions: the model targets a 64-bit platform, so
`usize` values live in `[0, 2^64)`.  Arithmetic that can overflow is made
explicit: the addition in `Lit::new` is reduced modulo `2^64`
(release-mode two's-complement wrapping; a debug build would panic at
exactly the inputs where the unreduced sum leaves the range, so either
way those inputs do not produce the mathematical value).  Fallible
operations of the parser — every `.unwrap()` on `str::parse`, and the
debug-checked `i32` arithmetic `l.abs() - 1` — are modelled with
`Option`, `none` standing for the panic that aborts the whole parse.
The regex classes `\d` and `\s` are modelled by their ASCII fragments
(the source's classes are Unicode-aware, which matters to no claim
here, all inputs of interest being ASCII).
-/

namespace Solhop

/-- Modulus of `usize` on a 64-bit target. -/
def USIZE : Nat := 2 ^ 64

/-- `Var(usize)` from src/lib.rs: a 0-based variable identifier. -/
structure Var where
  index : Nat
deriving DecidableEq, Repr

/-- `Var::new(index)`: wraps a raw index, no validation. -/
def Var.new (index : Nat) : Var := ⟨index⟩

/-- `Lit(usize)` from src/lib.rs: a bit-packed literal. -/
structure Lit where
  idx : Nat
deriving DecidableEq, Repr

/-- `UNDEF_LIT = Lit(usize::MAX)`: the placeholder literal. -/
def UNDEF_LIT : Lit := ⟨USIZE - 1⟩

/-- `Lit::sign`: `self.0 & 1 == 1`. -/
def Lit.sign (l : Lit) : Bool := l.idx &&& 1 == 1

/-- `Lit::var`: `Var(self.0 >> 1)`. -/
def Lit.var (l : Lit) : Var := ⟨l.idx >>> 1⟩

/-- `Lit::index`: the raw packed value. -/
def Lit.index (l : Lit) : Nat := l.idx

/-- `Lit::new(var, sign)`: `Lit(var.0 + var.0 + (sign as usize))`, the
`usize` sum taken modulo `2^64` (see the header comment on overflow). -/
def Lit.new (v : Var) (sign : Bool) : Lit :=
  ⟨(v.index + v.index + (if sign then 1 else 0)) % USIZE⟩

/-- `Var::pos_lit`: `Lit::new(self, false)`. -/
def Var.pos_lit (v : Var) : Lit := Lit.new v false

/-- `Var::neg_lit`: `Lit::new(self, true)`. -/
def Var.neg_lit (v : Var) : Lit := Lit.new v true

/-- `impl Not for Lit`: `Lit(self.0 ^ 1)`. -/
def Lit.not (l : Lit) : Lit := ⟨l.idx ^^^ 1⟩

/-!
The DIMACS parser of src/dimacs.rs.  The input stream is given as its
list of lines (what `reader.lines()` yields); each line is a list of
characters.  `none` models the panic of an `.unwrap()` that aborts the
whole parse.
-/

/-- `Dimacs` from src/dimacs.rs. -/
inductive Dimacs where
  | Cnf (n_vars : Nat) (clauses : List (List Lit))
  | Wcnf (n_vars : Nat) (clauses : List (List Lit × Nat)) (hard_weight : Option Nat)
deriving DecidableEq, Repr

/-- Whitespace, as used by `str::trim` and the regex class (ASCII fragment). -/
def isWs (c : Char) : Bool := c.isWhitespace

/-- `str::trim`: drop whitespace from both ends of the line. -/
def trimChars (cs : List Char) : List Char :=
  ((cs.dropWhile isWs).reverse.dropWhile isWs).reverse

/-- One token matched by the regex `(-?\d+)`: an optional minus sign
and the magnitude denoted by the digit run. -/
structure Tok where
  neg : Bool
  mag : Nat
deriving DecidableEq, Repr

/-- Scanner state for extracting every leftmost maximal `-?\d+` match:
outside any token, just after a `-` that may begin a token, or inside a
digit run with its sign and accumulated value. -/
inductive ScanSt where
  | idle
  | afterMinus
  | inNum (neg : Bool) (val : Nat)
deriving DecidableEq, Repr

/-- Left-to-right extraction of every maximal `-?\d+` match, as
`Regex::captures_iter` performs on a clause line.  A `-` opens a token
only when a digit follows it; a digit run is extended maximally. -/
def tokenizeAux : ScanSt → List Char → List Tok
  | .idle, [] => []
  | .afterMinus, [] => []
  | .inNum n v, [] => [⟨n, v⟩]
  | .idle, c :: cs =>
    if c.isDigit then tokenizeAux (.inNum false (c.toNat - 48)) cs
    else if c = '-' then tokenizeAux .afterMinus cs
    else tokenizeAux .idle cs
  | .afterMinus, c :: cs =>
    if c.isDigit then tokenizeAux (.inNum true (c.toNat - 48)) cs
    else if c = '-' then tokenizeAux .afterMinus cs
    else tokenizeAux .idle cs
  | .inNum n v, c :: cs =>
    if c.isDigit then tokenizeAux (.inNum n (v * 10 + (c.toNat - 48))) cs
    else if c = '-' then ⟨n, v⟩ :: tokenizeAux .afterMinus cs
    else ⟨n, v⟩ :: tokenizeAux .idle cs

/-- All `(-?\d+)` tokens of a clause line, leftmost first. -/
def tokenize (cs : List Char) : List Tok := tokenizeAux .idle cs

/-- `i32::MIN`. -/
def I32_MIN : Int := -2147483648

/-- `i32::MAX`. -/
def I32_MAX : Int := 2147483647

/-- A checked `i32` result: the value when it fits the type, `none` for
the overflow that panics a debug build. -/
def chkI32 (v : Int) : Option Int :=
  if I32_MIN ≤ v ∧ v ≤ I32_MAX then some v else none

/-- The integer a token denotes. -/
def tokVal (t : Tok) : Int := if t.neg then -(t.mag : Int) else (t.mag : Int)

/-- `str::parse::<i32>` on a `-?\d+` token: its value when in range. -/
def parseI32 (t : Tok) : Option Int := chkI32 (tokVal t)

/-- `str::parse::<u64>` on a `-?\d+` token: rejects any minus sign and
any magnitude of 2^64 or more. -/
def parseU64 (t : Tok) : Option Nat :=
  if t.neg = false ∧ t.mag < USIZE then some t.mag else none

/-- `str::parse::<usize>` on a header digit run (never signed). -/
def chkUsize (n : Nat) : Option Nat := if n < USIZE then some n else none

/-- `as usize` on an `i32` value: two's-complement reinterpretation. -/
def usizeOfI32 (v : Int) : Nat := (v % (USIZE : Int)).toNat

/-- The literal built from a nonzero clause token `l`:
`Var::new((l.abs() - 1) as usize)` then `pos_lit`/`neg_lit` by the sign
of `l`.  The `i32` steps `l.abs()` and `- 1` are debug-checked. -/
def litOfNonzero (l : Int) : Option Lit :=
  match chkI32 |l| with
  | none => none
  | some a =>
    match chkI32 (a - 1) with
    | none => none
    | some m =>
      some (if l > 0 then (Var.new (usizeOfI32 m)).pos_lit
            else (Var.new (usizeOfI32 m)).neg_lit)

/-- The literals collected from a list of clause tokens: value `0` is
skipped, every other value becomes a literal, any failed parse or
checked overflow aborts. -/
def litsOfToks : List Tok → Option (List Lit)
  | [] => some []
  | t :: ts =>
    match parseI32 t with
    | none => none
    | some v =>
      if v = 0 then litsOfToks ts
      else
        match litOfNonzero v with
        | none => none
        | some l =>
          match litsOfToks ts with
          | none => none
          | some rest => some (l :: rest)

/-- One clause line's tokens folded into (literals, weight).  In WCNF
mode the first token is consumed as the `u64` weight; the weight
defaults to `0` when no weight token was consumed. -/
def clauseFromToks (w : Bool) (toks : List Tok) : Option (List Lit × Nat) :=
  if w then
    match toks with
    | [] => some ([], 0)
    | t :: ts =>
      match parseU64 t with
      | none => none
      | some wt =>
        match litsOfToks ts with
        | none => none
        | some ls => some (ls, wt)
  else
    match litsOfToks toks with
    | none => none
    | some ls => some (ls, 0)

/-- A whole clause line folded into (literals, weight). -/
def clauseOfLine (w : Bool) (line : List Char) : Option (List Lit × Nat) :=
  clauseFromToks w (tokenize line)

/-- Drop the rest of a maximal whitespace run. -/
def dropWhileWs (cs : List Char) : List Char := cs.dropWhile isWs

/-- The regex piece `\s+`: at least one whitespace, consumed maximally. -/
def ws1 : List Char → Option (List Char)
  | [] => none
  | c :: cs => if isWs c then some (dropWhileWs cs) else none

/-- Greedily read a maximal digit run, accumulating its value. -/
def digitsVal (acc : Nat) : List Char → Nat × List Char
  | [] => (acc, [])
  | c :: cs =>
    if c.isDigit then digitsVal (acc * 10 + (c.toNat - 48)) cs else (acc, c :: cs)

/-- The regex piece `(\d+)`: a maximal nonempty digit run and its value. -/
def num1 : List Char → Option (Nat × List Char)
  | [] => none
  | c :: cs => if c.isDigit then some (digitsVal (c.toNat - 48) cs) else none

/-- Match a fixed sequence of characters, returning the remainder. -/
def exactChars : List Char → List Char → Option (List Char)
  | [], cs => some cs
  | _ :: _, [] => none
  | p :: ps, c :: cs => if c = p then exactChars ps cs else none

/-- The regex `^p\s+cnf\s+(\d+)\s+(\d+)` on a trimmed line: the two
captured numbers.  The pattern is unanchored at the right, so trailing
content is ignored. -/
def matchCnf (t : List Char) : Option (Nat × Nat) :=
  match exactChars ['p'] t with
  | none => none
  | some r1 =>
    match ws1 r1 with
    | none => none
    | some r2 =>
      match exactChars ['c', 'n', 'f'] r2 with
      | none => none
      | some r3 =>
        match ws1 r3 with
        | none => none
        | some r4 =>
          match num1 r4 with
          | none => none
          | some (a, r5) =>
            match ws1 r5 with
            | none => none
            | some r6 =>
              match num1 r6 with
              | none => none
              | some (b, _) => some (a, b)

/-- The regex `^p\s+wcnf\s+(\d+)\s+(\d+)(?:\s+(\d+))?` on a trimmed
line: two captured numbers and the optional third. -/
def matchWcnf (t : List Char) : Option (Nat × Nat × Option Nat) :=
  match exactChars ['p'] t with
  | none => none
  | some r1 =>
    match ws1 r1 with
    | none => none
    | some r2 =>
      match exactChars ['w', 'c', 'n', 'f'] r2 with
      | none => none
      | some r3 =>
        match ws1 r3 with
        | none => none
        | some r4 =>
          match num1 r4 with
          | none => none
          | some (a, r5) =>
            match ws1 r5 with
            | none => none
            | some r6 =>
              match num1 r6 with
              | none => none
              | some (b, r7) =>
                match ws1 r7 with
                | none => some (a, b, none)
                | some r8 =>
                  match num1 r8 with
                  | none => some (a, b, none)
                  | some (c, _) => some (a, b, some c)

/-- The parser's accumulator: the local mutable state of
`parse_dimacs_from_buf_reader`. -/
structure DState where
  n_clauses : Nat
  n_vars : Nat
  clauses : List (List Lit)
  weights : List Nat
  hard_weight : Option Nat
  is_wcnf : Bool
deriving DecidableEq, Repr

/-- The state before the first line: all counters `0`, nothing
collected, CNF mode. -/
def initState : DState := ⟨0, 0, [], [], none, false⟩

/-- Processing of a line starting with `p`: try the CNF pattern, then
the WCNF pattern; a line matching neither leaves the state unchanged.
Matched numbers go through the `usize`/`u64` parses whose overflow
panics (`none`). -/
def headerStep (s : DState) (t : List Char) : Option DState :=
  match matchCnf t with
  | some (a, b) =>
    match chkUsize a, chkUsize b with
    | some a2, some b2 => some { s with n_vars := a2, n_clauses := b2 }
    | _, _ => none
  | none =>
    match matchWcnf t with
    | none => some s
    | some (a, b, hw) =>
      match chkUsize a, chkUsize b with
      | some a2, some b2 =>
        match hw with
        | none =>
          some { s with is_wcnf := true, n_vars := a2, n_clauses := b2,
                        hard_weight := none }
        | some h =>
          match chkUsize h with
          | some h2 =>
            some { s with is_wcnf := true, n_vars := a2, n_clauses := b2,
                          hard_weight := some h2 }
          | none => none
      | _, _ => none

/-- Processing of a clause line: fold it into one clause and one
weight, both appended to the accumulator. -/
def clauseStep (s : DState) (t : List Char) : Option DState :=
  match clauseOfLine s.is_wcnf t with
  | none => none
  | some (cl, wt) =>
    some { s with clauses := s.clauses ++ [cl], weights := s.weights ++ [wt] }

/-- The line loop of `parse_dimacs_from_buf_reader`: skip blank and
comment lines, give `p` lines to the header step, fold every other
line as a clause, and stop as soon as the number of collected clauses
equals `n_clauses`. -/
def runLines (s : DState) : List (List Char) → Option DState
  | [] => some s
  | l :: rest =>
    match trimChars l with
    | [] => runLines s rest
    | c :: t =>
      if c = 'c' then runLines s rest
      else if c = 'p' then
        match headerStep s (c :: t) with
        | none => none
        | some s2 => runLines s2 rest
      else
        match clauseStep s (c :: t) with
        | none => none
        | some s2 =>
          if s2.clauses.length = s2.n_clauses then some s2 else runLines s2 rest

/-- Assembly of the final value: the WCNF variant zips clauses with
their weights. -/
def finalize (s : DState) : Dimacs :=
  if s.is_wcnf then Dimacs.Wcnf s.n_vars (s.clauses.zip s.weights) s.hard_weight
  else Dimacs.Cnf s.n_vars s.clauses

/-- `parse_dimacs_from_buf_reader`, over the list of input lines. -/
def parse_dimacs_from_buf_reader (input : List (List Char)) : Option Dimacs :=
  (runLines initState input).map finalize

/-- A line the loop folds as a clause: trimmed nonempty and opening
with neither `c` nor `p`. -/
def isClauseLine (l : List Char) : Bool :=
  match trimChars l with
  | [] => false
  | c :: _ => !(c == 'c' || c == 'p')

/-- A line routed to the header step: trimmed, it opens with `p`. -/
def isPLine (l : List Char) : Bool :=
  match trimChars l with
  | [] => false
  | c :: _ => c == 'p'

/-- A line the loop skips: blank, or a comment opening with `c`. -/
def isSkipLine (l : List Char) : Bool :=
  match trimChars l with
  | [] => true
  | c :: _ => c == 'c'

/-- A clause line that folds without a fatal token in CNF mode. -/
def cnfLineOk (l : List Char) : Bool :=
  isClauseLine l && (clauseOfLine false (trimChars l)).isSome

/-! Small bit-level helpers about the packed representation. -/

/-- Flipping bit 0 does not change the bits above it. -/
theorem xor_one_shiftRight_one (x : Nat) : (x ^^^ 1) >>> 1 = x >>> 1 := by
  apply Nat.eq_of_testBit_eq
  intro i
  have h1 : Nat.testBit 1 (1 + i) = false := by
    rw [Nat.add_comm, Nat.testBit_succ]
    simp
  simp [Nat.testBit_shiftRight, Nat.testBit_xor, h1]

/-- Flipping bit 0 flips parity. -/
theorem xor_one_mod_two (x : Nat) : (x ^^^ 1) % 2 = (x + 1) % 2 :=
  Nat.xor_mod_two_eq

end Solhop

namespace Solhop

/-- Claim C1, as stated, fails at the top half of the `usize` range:
packing index `2^63` with sign `false` computes `2^63 + 2^63 = 2^64`,
which wraps to `0`, so reading the variable back gives `0`, not `2^63`
(a debug build panics at the same input instead). -/
theorem C1_counterexample :
    (Lit.new (Var.new (2 ^ 63)) false).var.index = 0 ∧ (0 : Nat) ≠ 2 ^ 63 := by
  constructor
  · simp only [Lit.new, Var.new, Lit.var]
    norm_num [USIZE]
  · norm_num

/-- Claim C1 (amended): for every index `k` and sign `s` whose packed
value `2*k + s` fits in `usize` — in particular every `k < 2^63` —
constructing `Lit::new(Var::new(k), s)` and reading back `.var().index()`
yields `k`, and `.sign()` yields `s`. -/
theorem C1_roundtrip (k : Nat) (s : Bool)
    (h : k + k + (if s then 1 else 0) < USIZE) :
    (Lit.new (Var.new k) s).var.index = k ∧ (Lit.new (Var.new k) s).sign = s := by
  have hmod : (k + k + (if s then 1 else 0)) % USIZE = k + k + (if s then 1 else 0) :=
    Nat.mod_eq_of_lt h
  constructor
  · simp only [Lit.new, Var.new, Lit.var, hmod, Nat.shiftRight_one]
    cases s <;> simp <;> omega
  · simp only [Lit.new, Var.new, Lit.sign, hmod, Nat.and_one_is_mod]
    cases s <;> simp <;> omega

/-- Witness for C1_roundtrip at `k = 3`, `s = true`. -/
theorem C1_roundtrip_witness :
    (Lit.new (Var.new 3) true).var.index = 3 ∧ (Lit.new (Var.new 3) true).sign = true :=
  C1_roundtrip 3 true (by norm_num [USIZE])

/-- Claim C2, as stated, fails at index `2^63 - 1` with sign `true`:
the packed value is `2*(2^63 - 1) + 1 = 2^64 - 1 = usize::MAX`, exactly
the sentinel, so this real encoding collides with `UNDEF_LIT`. -/
theorem C2_counterexample :
    Lit.new (Var.new (2 ^ 63 - 1)) true = UNDEF_LIT := by
  simp only [Lit.new, Var.new, UNDEF_LIT]
  norm_num [USIZE]

/-- Claim C2 (amended): the encoding of `Lit::new(Var::new(k), s)` is
distinct from the sentinel `UNDEF_LIT` for every index `k` and sign `s`
whose packed value `2*k + s` is below `usize::MAX` — i.e. for every
valid index except the single boundary case `k = 2^63 - 1, s = true`,
whose packed value is exactly `usize::MAX`. -/
theorem C2_no_collision (k : Nat) (s : Bool)
    (h : k + k + (if s then 1 else 0) < USIZE - 1) :
    Lit.new (Var.new k) s ≠ UNDEF_LIT := by
  intro hc
  have hidx : (k + k + (if s then 1 else 0)) % USIZE = USIZE - 1 :=
    congrArg Lit.idx hc
  rw [Nat.mod_eq_of_lt (show k + k + (if s then 1 else 0) < USIZE by omega)] at hidx
  omega

/-- Witness for C2_no_collision at `k = 5`, `s = false`. -/
theorem C2_no_collision_witness : Lit.new (Var.new 5) false ≠ UNDEF_LIT :=
  C2_no_collision 5 false (by norm_num [USIZE])

/-- Claim C3: negation `Lit(self.0 ^ 1)` is self-inverse, keeps the
variable, and flips the sign, for every literal. -/
theorem C3_negation (l : Lit) :
    (l.not).not = l ∧ (l.not).var = l.var ∧ (l.not).sign ≠ l.sign := by
  refine ⟨?_, ?_, ?_⟩
  · simp only [Lit.not]
    rw [Nat.xor_cancel_right]
  · simp only [Lit.not, Lit.var]
    rw [xor_one_shiftRight_one]
  · simp only [Lit.not, Lit.sign]
    rw [Nat.and_one_is_mod, Nat.and_one_is_mod, xor_one_mod_two]
    rcases Nat.mod_two_eq_zero_or_one l.idx with h | h <;>
      simp [Nat.add_mod, h]

end Solhop

namespace Solhop

/-! Helper lemmas about one step of the line loop. -/

/-- Unfolding of the loop on a cons cell. -/
theorem runLines_cons (s : DState) (l : List Char) (rest : List (List Char)) :
    runLines s (l :: rest) =
      match trimChars l with
      | [] => runLines s rest
      | c :: t =>
        if c = 'c' then runLines s rest
        else if c = 'p' then
          match headerStep s (c :: t) with
          | none => none
          | some s2 => runLines s2 rest
        else
          match clauseStep s (c :: t) with
          | none => none
          | some s2 =>
            if s2.clauses.length = s2.n_clauses then some s2
            else runLines s2 rest := rfl

/-- A blank line is skipped. -/
theorem runLines_cons_nil (s : DState) (l : List Char) (rest : List (List Char))
    (h : trimChars l = []) : runLines s (l :: rest) = runLines s rest := by
  rw [runLines_cons, h]

/-- A comment line is skipped. -/
theorem runLines_cons_comment (s : DState) (l : List Char) (rest : List (List Char))
    (t : List Char) (h : trimChars l = 'c' :: t) :
    runLines s (l :: rest) = runLines s rest := by
  rw [runLines_cons, h]
  simp

/-- A `p` line goes through the header step. -/
theorem runLines_cons_header (s : DState) (l : List Char) (rest : List (List Char))
    (t : List Char) (h : trimChars l = 'p' :: t) :
    runLines s (l :: rest) =
      match headerStep s ('p' :: t) with
      | none => none
      | some s2 => runLines s2 rest := by
  rw [runLines_cons, h]
  simp

/-- Any other line is folded as a clause, with the early stop on
reaching the expected clause count. -/
theorem runLines_cons_clause (s : DState) (l : List Char) (rest : List (List Char))
    (c : Char) (t : List Char) (h : trimChars l = c :: t)
    (hc : c ≠ 'c') (hp : c ≠ 'p') :
    runLines s (l :: rest) =
      match clauseStep s (c :: t) with
      | none => none
      | some s2 =>
        if s2.clauses.length = s2.n_clauses then some s2
        else runLines s2 rest := by
  rw [runLines_cons, h]
  show (if c = 'c' then runLines s rest
        else if c = 'p' then
          match headerStep s (c :: t) with
          | none => none
          | some s2 => runLines s2 rest
        else
          match clauseStep s (c :: t) with
          | none => none
          | some s2 =>
            if s2.clauses.length = s2.n_clauses then some s2
            else runLines s2 rest) = _
  rw [if_neg hc, if_neg hp]

/-- The header step never touches the collected clauses or weights,
and never clears the WCNF flag. -/
theorem headerStep_state (s : DState) (t : List Char) (s2 : DState)
    (h : headerStep s t = some s2) :
    s2.clauses = s.clauses ∧ s2.weights = s.weights ∧
      (s.is_wcnf = true → s2.is_wcnf = true) := by
  unfold headerStep at h
  repeat' split at h
  all_goals first
    | (injection h with h2; subst h2; simp)
    | cases h

/-- The clause step appends exactly one clause and one weight and
changes nothing else. -/
theorem clauseStep_state (s : DState) (t : List Char) (s2 : DState)
    (h : clauseStep s t = some s2) :
    s2.n_clauses = s.n_clauses ∧ s2.n_vars = s.n_vars ∧
      s2.is_wcnf = s.is_wcnf ∧ s2.hard_weight = s.hard_weight ∧
      ∃ cl wt, s2.clauses = s.clauses ++ [cl] ∧ s2.weights = s.weights ++ [wt] := by
  unfold clauseStep at h
  split at h
  · cases h
  · next cl wt _ =>
    injection h with h2
    subst h2
    exact ⟨rfl, rfl, rfl, rfl, cl, wt, rfl, rfl⟩

/-- Once set, the WCNF flag survives the rest of the loop. -/
theorem runLines_wcnf_latch :
    ∀ (ls : List (List Char)) (s s2 : DState),
      runLines s ls = some s2 → s.is_wcnf = true → s2.is_wcnf = true := by
  intro ls
  induction ls with
  | nil =>
    intro s s2 h hw
    cases h
    exact hw
  | cons l rest ih =>
    intro s s2 h hw
    cases htl : trimChars l with
    | nil =>
      rw [runLines_cons_nil s l rest htl] at h
      exact ih s s2 h hw
    | cons c t =>
      by_cases hc : c = 'c'
      · subst hc
        rw [runLines_cons_comment s l rest t htl] at h
        exact ih s s2 h hw
      · by_cases hp : c = 'p'
        · subst hp
          rw [runLines_cons_header s l rest t htl] at h
          cases hh : headerStep s ('p' :: t) with
          | none => simp only [hh] at h; cases h
          | some s1 =>
            simp only [hh] at h
            exact ih s1 s2 h ((headerStep_state s ('p' :: t) s1 hh).2.2 hw)
        · rw [runLines_cons_clause s l rest c t htl hc hp] at h
          cases hcs : clauseStep s (c :: t) with
          | none => simp only [hcs] at h; cases h
          | some s1 =>
            simp only [hcs] at h
            have hw1 : s1.is_wcnf = true := by
              rw [(clauseStep_state s (c :: t) s1 hcs).2.2.1]
              exact hw
            by_cases hb : s1.clauses.length = s1.n_clauses
            · rw [if_pos hb] at h; cases h; exact hw1
            · rw [if_neg hb] at h; exact ih s1 s2 h hw1

/-- The loop keeps the clause list and the weight list the same length. -/
theorem runLines_len_inv :
    ∀ (ls : List (List Char)) (s s2 : DState),
      runLines s ls = some s2 → s.clauses.length = s.weights.length →
      s2.clauses.length = s2.weights.length := by
  intro ls
  induction ls with
  | nil =>
    intro s s2 h hlen
    cases h
    exact hlen
  | cons l rest ih =>
    intro s s2 h hlen
    cases htl : trimChars l with
    | nil =>
      rw [runLines_cons_nil s l rest htl] at h
      exact ih s s2 h hlen
    | cons c t =>
      by_cases hc : c = 'c'
      · subst hc
        rw [runLines_cons_comment s l rest t htl] at h
        exact ih s s2 h hlen
      · by_cases hp : c = 'p'
        · subst hp
          rw [runLines_cons_header s l rest t htl] at h
          cases hh : headerStep s ('p' :: t) with
          | none => simp only [hh] at h; cases h
          | some s1 =>
            simp only [hh] at h
            obtain ⟨e1, e2, -⟩ := headerStep_state s ('p' :: t) s1 hh
            exact ih s1 s2 h (by rw [e1, e2]; exact hlen)
        · rw [runLines_cons_clause s l rest c t htl hc hp] at h
          cases hcs : clauseStep s (c :: t) with
          | none => simp only [hcs] at h; cases h
          | some s1 =>
            simp only [hcs] at h
            obtain ⟨-, -, -, -, cl, wt, e1, e2⟩ := clauseStep_state s (c :: t) s1 hcs
            have hlen1 : s1.clauses.length = s1.weights.length := by
              rw [e1, e2]
              simp [hlen]
            by_cases hb : s1.clauses.length = s1.n_clauses
            · rw [if_pos hb] at h; cases h; exact hlen1
            · rw [if_neg hb] at h; exact ih s1 s2 h hlen1

/-- Blank and comment lines leave the state untouched. -/
theorem runLines_skip :
    ∀ (ls : List (List Char)) (s : DState),
      (∀ l ∈ ls, isSkipLine l = true) → runLines s ls = some s := by
  intro ls
  induction ls with
  | nil => intro s _; rfl
  | cons l rest ih =>
    intro s hall
    have hl : isSkipLine l = true := hall l (List.mem_cons_self _ _)
    have hrest : ∀ l2 ∈ rest, isSkipLine l2 = true :=
      fun l2 h2 => hall l2 (List.mem_cons_of_mem _ h2)
    cases htl : trimChars l with
    | nil =>
      rw [runLines_cons_nil s l rest htl]
      exact ih s hrest
    | cons c t =>
      have hc : c = 'c' := by
        unfold isSkipLine at hl
        rw [htl] at hl
        simpa using hl
      subst hc
      rw [runLines_cons_comment s l rest t htl]
      exact ih s hrest

/-- With no header line in sight the loop can change neither the
format flag nor the declared variable count. -/
theorem runLines_no_header :
    ∀ (ls : List (List Char)) (s s2 : DState),
      (∀ l ∈ ls, isPLine l = false) → runLines s ls = some s2 →
      s2.is_wcnf = s.is_wcnf ∧ s2.n_vars = s.n_vars := by
  intro ls
  induction ls with
  | nil =>
    intro s s2 _ h
    cases h
    exact ⟨rfl, rfl⟩
  | cons l rest ih =>
    intro s s2 hall h
    have hrest : ∀ l2 ∈ rest, isPLine l2 = false :=
      fun l2 h2 => hall l2 (List.mem_cons_of_mem _ h2)
    cases htl : trimChars l with
    | nil =>
      rw [runLines_cons_nil s l rest htl] at h
      exact ih s s2 hrest h
    | cons c t =>
      by_cases hc : c = 'c'
      · subst hc
        rw [runLines_cons_comment s l rest t htl] at h
        exact ih s s2 hrest h
      · have hp : c ≠ 'p' := by
          intro hcp
          subst hcp
          have hpl := hall l (List.mem_cons_self _ _)
          unfold isPLine at hpl
          rw [htl] at hpl
          simp at hpl
        rw [runLines_cons_clause s l rest c t htl hc hp] at h
        cases hcs : clauseStep s (c :: t) with
        | none => simp only [hcs] at h; cases h
        | some s1 =>
          simp only [hcs] at h
          obtain ⟨-, hnv, hwf, -⟩ := clauseStep_state s (c :: t) s1 hcs
          by_cases hb : s1.clauses.length = s1.n_clauses
          · rw [if_pos hb] at h; cases h; exact ⟨hwf, hnv⟩
          · rw [if_neg hb] at h
            obtain ⟨h1, h2⟩ := ih s1 s2 hrest h
            exact ⟨h1.trans hwf, h2.trans hnv⟩

/-- While in CNF mode and strictly below the declared clause count, the
loop runs through exactly the missing number of successful clause
lines, stops on the line that completes the count, and its result does
not depend on any later line. -/
theorem runLines_reaches_count :
    ∀ (ls : List (List Char)) (s : DState),
      s.is_wcnf = false →
      s.clauses.length < s.n_clauses →
      s.n_clauses - s.clauses.length ≤ ls.length →
      (∀ l ∈ ls.take (s.n_clauses - s.clauses.length), cnfLineOk l = true) →
      ∃ s2, runLines s ls = some s2 ∧
        s2.clauses.length = s2.n_clauses ∧
        s2.n_clauses = s.n_clauses ∧ s2.n_vars = s.n_vars ∧ s2.is_wcnf = false ∧
        runLines s ls = runLines s (ls.take (s.n_clauses - s.clauses.length)) := by
  intro ls
  induction ls with
  | nil =>
    intro s _ hlt hle _
    simp at hle
    omega
  | cons l rest ih =>
    intro s hw hlt hle hok
    have htake : (l :: rest).take (s.n_clauses - s.clauses.length) =
        l :: rest.take (s.n_clauses - s.clauses.length - 1) := by
      cases hdd : s.n_clauses - s.clauses.length with
      | zero => omega
      | succ k => simp
    have hlok : cnfLineOk l = true :=
      hok l (by rw [htake]; exact List.mem_cons_self _ _)
    rw [cnfLineOk, Bool.and_eq_true] at hlok
    obtain ⟨hcl, hsome⟩ := hlok
    cases htl : trimChars l with
    | nil =>
      unfold isClauseLine at hcl
      simp only [htl] at hcl
      exact Bool.noConfusion hcl
    | cons c t =>
      have hcp : ¬c = 'c' ∧ ¬c = 'p' := by
        unfold isClauseLine at hcl
        simp only [htl] at hcl
        simpa using hcl
      rw [htl] at hsome
      cases hco : clauseOfLine false (c :: t) with
      | none => rw [hco] at hsome; simp at hsome
      | some p =>
        obtain ⟨cl, wt⟩ := p
        have hstep : clauseStep s (c :: t) =
            some { s with clauses := s.clauses ++ [cl],
                          weights := s.weights ++ [wt] } := by
          unfold clauseStep
          rw [hw]
          simp only [hco]
        set s1 : DState := { s with clauses := s.clauses ++ [cl],
                                    weights := s.weights ++ [wt] } with hs1
        have hlen1 : s1.clauses.length = s.clauses.length + 1 := by
          rw [hs1]; simp
        have hnc1 : s1.n_clauses = s.n_clauses := by rw [hs1]
        have hnv1 : s1.n_vars = s.n_vars := by rw [hs1]
        have hwf1 : s1.is_wcnf = false := by rw [hs1]; exact hw
        by_cases hb : s1.clauses.length = s1.n_clauses
        · -- the count is reached: the loop stops here
          have hrun : runLines s (l :: rest) = some s1 := by
            rw [runLines_cons_clause s l rest c t htl hcp.1 hcp.2]
            simp only [hstep]
            rw [if_pos hb]
          have hd1 : s.n_clauses - s.clauses.length = 1 := by omega
          have hruntr : runLines s ((l :: rest).take
              (s.n_clauses - s.clauses.length)) = some s1 := by
            rw [htake, hd1]
            simp only [Nat.sub_self, List.take_zero]
            rw [runLines_cons_clause s l [] c t htl hcp.1 hcp.2]
            simp only [hstep]
            rw [if_pos hb]
          exact ⟨s1, hrun, hb, hnc1, hnv1, hwf1, hrun.trans hruntr.symm⟩
        · -- still short of the count: recurse
          have hrun : runLines s (l :: rest) = runLines s1 rest := by
            rw [runLines_cons_clause s l rest c t htl hcp.1 hcp.2]
            simp only [hstep]
            rw [if_neg hb]
          have hlt1 : s1.clauses.length < s1.n_clauses := by omega
          have hd1 : s1.n_clauses - s1.clauses.length =
              s.n_clauses - s.clauses.length - 1 := by omega
          have hle1 : s1.n_clauses - s1.clauses.length ≤ rest.length := by
            simp at hle
            omega
          have hok1 : ∀ l2 ∈ rest.take (s1.n_clauses - s1.clauses.length),
              cnfLineOk l2 = true := by
            intro l2 h2
            rw [hd1] at h2
            exact hok l2 (by rw [htake]; exact List.mem_cons_of_mem _ h2)
          obtain ⟨s2, g1, g2, g3, g4, g5, g6⟩ := ih s1 hwf1 hlt1 hle1 hok1
          refine ⟨s2, hrun.trans g1, g2, g3.trans hnc1, g4.trans hnv1, g5, ?_⟩
          rw [hrun, g1, htake]
          have htr : runLines s (l :: rest.take
              (s.n_clauses - s.clauses.length - 1)) =
              runLines s1 (rest.take (s.n_clauses - s.clauses.length - 1)) := by
            rw [runLines_cons_clause s l _ c t htl hcp.1 hcp.2]
            simp only [hstep]
            rw [if_neg hb]
          rw [htr, ← hd1, ← g6, g1]

end Solhop

namespace Solhop

/-! The claims about the DIMACS parser. -/

/-- Claim C4: in WCNF mode the first token of a clause line is consumed
as the clause's weight and never contributes a literal — the literals
come from the remaining tokens only — and the spec's WCNF example
parses to exactly the stated value. -/
theorem C4_wcnf_weight :
    (∀ (t : Tok) (ts : List Tok) (ls : List Lit) (wt : Nat),
        clauseFromToks true (t :: ts) = some (ls, wt) →
        parseU64 t = some wt ∧ litsOfToks ts = some ls) ∧
    parse_dimacs_from_buf_reader
        ["p wcnf 1 2".toList, "2 1 0".toList, "3 -1 0".toList] =
      some (Dimacs.Wcnf 1
        [([(Var.new 0).pos_lit], 2), ([(Var.new 0).neg_lit], 3)] none) := by
  refine ⟨?_, by decide⟩
  intro t ts ls wt h
  simp only [clauseFromToks, if_true] at h
  cases hw : parseU64 t with
  | none =>
    simp only [hw] at h
    simp at h
  | some w0 =>
    simp only [hw] at h
    cases hl : litsOfToks ts with
    | none =>
      simp only [hl] at h
      simp at h
    | some ls0 =>
      simp only [hl] at h
      have e := Option.some.inj h
      have e1 : ls0 = ls := congrArg Prod.fst e
      have e2 : w0 = wt := congrArg Prod.snd e
      rw [← e1, ← e2]
      exact ⟨rfl, rfl⟩

/-- Witness for C4_wcnf_weight: the clause line `2 1 0` in WCNF mode
yields weight `2` and the single literal of variable 0. -/
theorem C4_wcnf_weight_witness :
    parseU64 ⟨false, 2⟩ = some 2 ∧
      litsOfToks [⟨false, 1⟩, ⟨false, 0⟩] = some [(Var.new 0).pos_lit] :=
  C4_wcnf_weight.1 ⟨false, 2⟩ [⟨false, 1⟩, ⟨false, 0⟩] _ _ (by decide)

/-- Claim C5, as stated, fails when the header declares a clause count
of `0`: the stop test compares for equality after each append, `1 ≠ 0`
already, so the parser never stops and collects every clause line
instead of zero of them. -/
theorem C5_counterexample :
    parse_dimacs_from_buf_reader
        ["p cnf 1 0".toList, "1 0".toList, "1 0".toList] =
      some (Dimacs.Cnf 1 [[(Var.new 0).pos_lit], [(Var.new 0).pos_lit]]) ∧
    ([[(Var.new 0).pos_lit], [(Var.new 0).pos_lit]] : List (List Lit)).length ≠ 0 :=
  ⟨by decide, by decide⟩

/-- Claim C5 (amended): for an input of one CNF header declaring a
positive clause count `n`, followed by at least `n` clause lines of
which the first `n` fold without a fatal token, the parser collects
exactly `n` clauses and its result ignores every line beyond the
`n`-th clause line. -/
theorem C5_stops_at_declared_count (h0 : List Char) (v n : Nat)
    (ls : List (List Char))
    (hp : isPLine h0 = true)
    (hmatch : matchCnf (trimChars h0) = some (v, n))
    (hv : v < USIZE) (hn : n < USIZE) (hpos : 0 < n)
    (hlen : n ≤ ls.length)
    (hok : ∀ l ∈ ls.take n, cnfLineOk l = true) :
    parse_dimacs_from_buf_reader (h0 :: ls) =
      parse_dimacs_from_buf_reader (h0 :: ls.take n) ∧
    ∃ cls : List (List Lit), cls.length = n ∧
      parse_dimacs_from_buf_reader (h0 :: ls) = some (Dimacs.Cnf v cls) := by
  cases htl : trimChars h0 with
  | nil =>
    unfold isPLine at hp
    simp only [htl] at hp
    exact Bool.noConfusion hp
  | cons c t =>
    have hcp : c = 'p' := by
      unfold isPLine at hp
      simp only [htl] at hp
      simpa using hp
    subst hcp
    rw [htl] at hmatch
    have hcv : chkUsize v = some v := by unfold chkUsize; rw [if_pos hv]
    have hcn : chkUsize n = some n := by unfold chkUsize; rw [if_pos hn]
    have hh : headerStep initState ('p' :: t) =
        some { initState with n_vars := v, n_clauses := n } := by
      unfold headerStep
      simp only [hmatch, hcv, hcn]
    set s1 : DState := { initState with n_vars := v, n_clauses := n } with hs1
    have hd : s1.n_clauses - s1.clauses.length = n := by rw [hs1]; rfl
    obtain ⟨s2, g1, g2, g3, g4, g5, g6⟩ :=
      runLines_reaches_count ls s1 (by rw [hs1]; rfl)
        (by rw [hs1]; simpa using hpos) (by rw [hd]; exact hlen)
        (by rw [hd]; exact hok)
    have hfull : runLines initState (h0 :: ls) = runLines s1 ls := by
      rw [runLines_cons_header initState h0 ls t htl]
      simp only [hh]
    have htrunc : runLines initState (h0 :: ls.take n) =
        runLines s1 (ls.take n) := by
      rw [runLines_cons_header initState h0 (ls.take n) t htl]
      simp only [hh]
    constructor
    · unfold parse_dimacs_from_buf_reader
      rw [hfull, htrunc, g6, hd]
    · refine ⟨s2.clauses, ?_, ?_⟩
      · rw [g2, g3, hs1]
      · unfold parse_dimacs_from_buf_reader
        rw [hfull, g1]
        simp only [Option.map_some']
        unfold finalize
        rw [if_neg (by rw [g5]; simp)]
        rw [g4, hs1]

/-- Witness for C5_stops_at_declared_count: header `p cnf 1 1` with two
clause lines behind it stops after the first. -/
theorem C5_stops_witness :
    parse_dimacs_from_buf_reader
        ["p cnf 1 1".toList, "1 0".toList, "2 0".toList] =
      parse_dimacs_from_buf_reader
        ("p cnf 1 1".toList :: ["1 0".toList, "2 0".toList].take 1) ∧
    ∃ cls : List (List Lit), cls.length = 1 ∧
      parse_dimacs_from_buf_reader
          ["p cnf 1 1".toList, "1 0".toList, "2 0".toList] =
        some (Dimacs.Cnf 1 cls) :=
  C5_stops_at_declared_count "p cnf 1 1".toList 1 1
    ["1 0".toList, "2 0".toList] (by decide) (by decide) (by decide)
    (by decide) (by decide) (by decide) (by decide)

/-- Claim C6, as stated, fails: with no header line the parser still
collects clause lines — `"1 0"` alone yields one clause, not an empty
sequence — and a clause token out of `i32` range panics it even though
no header is missing-related. -/
theorem C6_counterexample :
    parse_dimacs_from_buf_reader ["1 0".toList] =
      some (Dimacs.Cnf 0 [[(Var.new 0).pos_lit]]) ∧
    Dimacs.Cnf 0 [[(Var.new 0).pos_lit]] ≠ Dimacs.Cnf 0 [] ∧
    parse_dimacs_from_buf_reader ["99999999999 0".toList] = none :=
  ⟨by decide, by decide, by decide⟩

/-- Claim C6 (amended): a missing header alone never makes the parser
fail or leave the CNF default — whenever no line of the input starts
(after trimming) with `p`, any successful parse is the `Cnf` variant
with `n_vars = 0` and exactly the clauses collected from the clause
lines; in particular an input of only blank and comment lines yields
`Cnf` with `n_vars = 0` and no clauses. -/
theorem C6_missing_header :
    (∀ input : List (List Char), (∀ l ∈ input, isPLine l = false) →
        ∀ d, parse_dimacs_from_buf_reader input = some d →
          ∃ cls, d = Dimacs.Cnf 0 cls) ∧
    (∀ input : List (List Char), (∀ l ∈ input, isSkipLine l = true) →
        parse_dimacs_from_buf_reader input = some (Dimacs.Cnf 0 [])) := by
  constructor
  · intro input hnp d h
    unfold parse_dimacs_from_buf_reader at h
    cases hr : runLines initState input with
    | none => rw [hr] at h; cases h
    | some s2 =>
      rw [hr] at h
      simp only [Option.map_some'] at h
      injection h with h2
      obtain ⟨hwf, hnv⟩ := runLines_no_header input initState s2 hnp hr
      refine ⟨s2.clauses, ?_⟩
      rw [← h2]
      unfold finalize
      rw [if_neg (by rw [hwf]; simp [initState])]
      rw [hnv]
      rfl
  · intro input hskip
    unfold parse_dimacs_from_buf_reader
    rw [runLines_skip input initState hskip]
    rfl

/-- Witness for C6_missing_header: a comment plus a blank line parse to
the empty CNF default, and the headerless input `1 0` parses to the
`Cnf` variant. -/
theorem C6_missing_header_witness :
    parse_dimacs_from_buf_reader ["c hello".toList, "   ".toList] =
      some (Dimacs.Cnf 0 []) ∧
    ∃ cls, Dimacs.Cnf 0 [[(Var.new 0).pos_lit]] = Dimacs.Cnf 0 cls :=
  ⟨C6_missing_header.2 ["c hello".toList, "   ".toList] (by decide),
   C6_missing_header.1 ["1 0".toList] (by decide) _ (by decide)⟩

/-- Claim C7: a token of value `0` on a clause line contributes no
literal and does not end the processing of the line — the literals are
the same as if the `0` were absent — while each clause line still
produces exactly one clause; the line `1 0 2 0` therefore folds both
literals into one clause. -/
theorem C7_zero_token :
    (∀ (pre post : List Tok) (z : Tok), tokVal z = 0 →
        litsOfToks (pre ++ z :: post) = litsOfToks (pre ++ post)) ∧
    (∀ (s : DState) (t : List Char) (s2 : DState), clauseStep s t = some s2 →
        s2.clauses.length = s.clauses.length + 1) ∧
    parse_dimacs_from_buf_reader ["p cnf 2 1".toList, "1 0 2 0".toList] =
      some (Dimacs.Cnf 2 [[(Var.new 0).pos_lit, (Var.new 1).pos_lit]]) := by
  refine ⟨?_, ?_, by decide⟩
  · intro pre post z hz
    induction pre with
    | nil =>
      have hpz : parseI32 z = some 0 := by
        unfold parseI32 chkI32
        rw [hz]
        norm_num [I32_MIN, I32_MAX]
      simp only [List.nil_append, litsOfToks, hpz]
      simp
    | cons t pre ih =>
      simp only [List.cons_append, litsOfToks, List.append_eq]
      cases hpt : parseI32 t with
      | none => rfl
      | some v =>
        by_cases hv : v = 0
        · simp only [if_pos hv]
          exact ih
        · simp only [if_neg hv, ih, List.append_eq]
  · intro s t s2 h
    obtain ⟨-, -, -, -, cl, wt, e1, -⟩ := clauseStep_state s t s2 h
    rw [e1]
    simp

/-- Witness for C7_zero_token: dropping the middle `0` from the token
list `1 0 2` leaves the folded literals unchanged, and a clause step
from the empty accumulator appends exactly one clause. -/
theorem C7_zero_token_witness :
    litsOfToks ([⟨false, 1⟩] ++ ⟨false, 0⟩ :: [⟨false, 2⟩]) =
      litsOfToks ([⟨false, 1⟩] ++ [⟨false, 2⟩]) ∧
    (DState.mk 0 0 [[(Var.new 6).pos_lit]] [0] none false).clauses.length =
      (DState.mk 0 0 [] [] none false).clauses.length + 1 :=
  ⟨C7_zero_token.1 [⟨false, 1⟩] [⟨false, 2⟩] ⟨false, 0⟩ (by decide),
   C7_zero_token.2.1 (DState.mk 0 0 [] [] none false) "7 0".toList
     (DState.mk 0 0 [[(Var.new 6).pos_lit]] [0] none false) (by decide)⟩

/-- Claim C8, as stated, fails at the token `-2147483648`: it parses as
`i32::MIN`, where `l.abs()` overflows `i32` — a panic under debug
assertions, and a wrap in release mode — so the mapping is not total:
the checked model aborts, and an end-to-end parse of such a clause line
dies instead of producing a literal. -/
theorem C8_counterexample :
    litOfNonzero I32_MIN = none ∧
    parse_dimacs_from_buf_reader
        ["p cnf 1 1".toList, "-2147483648 0".toList] = none :=
  ⟨by decide, by decide⟩

/-- Claim C8 (amended): for every nonzero `i32` value `v` other than
`i32::MIN`, the parser's literal mapping is total — no overflow in
`l.abs() - 1` and no panic — and produces the positive literal of
`Var::new(|v| - 1)` when `v > 0`, its negative literal when `v < 0`. -/
theorem C8_literal_mapping (v : Int) (h1 : I32_MIN ≤ v) (h2 : v ≤ I32_MAX)
    (h0 : v ≠ 0) (hmin : v ≠ I32_MIN) :
    litOfNonzero v =
      some (if v > 0 then (Var.new (|v| - 1).toNat).pos_lit
            else (Var.new (|v| - 1).toNat).neg_lit) := by
  have hnn : (0 : Int) ≤ |v| := abs_nonneg v
  have hb : 1 ≤ |v| ∧ |v| ≤ I32_MAX := by
    rcases abs_choice v with he | he <;> rw [he] <;>
      unfold I32_MIN I32_MAX at * <;> omega
  have hc1 : chkI32 |v| = some |v| := by
    unfold chkI32
    rw [if_pos ⟨by unfold I32_MIN; omega, hb.2⟩]
  have hc2 : chkI32 (|v| - 1) = some (|v| - 1) := by
    unfold chkI32
    refine if_pos ⟨by unfold I32_MIN; omega, ?_⟩
    unfold I32_MAX at *
    omega
  have hus : usizeOfI32 (|v| - 1) = (|v| - 1).toNat := by
    unfold usizeOfI32
    have hcast : ((USIZE : Nat) : Int) = 18446744073709551616 := by
      norm_num [USIZE]
    have hlt : |v| - 1 < ((USIZE : Nat) : Int) := by
      unfold I32_MAX at hb
      omega
    rw [Int.emod_eq_of_lt (by omega) hlt]
  unfold litOfNonzero
  simp only [hc1, hc2, hus]

/-- Witness for C8_literal_mapping at `v = 5` and `v = -1`. -/
theorem C8_literal_mapping_witness :
    litOfNonzero 5 =
      some (if (5 : Int) > 0 then (Var.new (|(5 : Int)| - 1).toNat).pos_lit
            else (Var.new (|(5 : Int)| - 1).toNat).neg_lit) ∧
    litOfNonzero (-1) =
      some (if (-1 : Int) > 0 then (Var.new (|(-1 : Int)| - 1).toNat).pos_lit
            else (Var.new (|(-1 : Int)| - 1).toNat).neg_lit) :=
  ⟨C8_literal_mapping 5 (by decide) (by decide) (by decide) (by decide),
   C8_literal_mapping (-1) (by decide) (by decide) (by decide) (by decide)⟩

/-- Claim C9: in every WCNF result the clause list and the weight list
have the same length, the final pairing is their positional zip, and
with equal lengths the zip drops nothing: projecting the pairs back
gives exactly the collected clauses and exactly the collected weights,
so clause `i` carries the weight parsed on its own line. -/
theorem C9_pairing (input : List (List Char)) (v : Nat)
    (pairs : List (List Lit × Nat)) (hw : Option Nat)
    (h : parse_dimacs_from_buf_reader input = some (Dimacs.Wcnf v pairs hw)) :
    ∃ s2, runLines initState input = some s2 ∧
      s2.clauses.length = s2.weights.length ∧
      pairs = s2.clauses.zip s2.weights ∧
      pairs.map Prod.fst = s2.clauses ∧
      pairs.map Prod.snd = s2.weights := by
  unfold parse_dimacs_from_buf_reader at h
  cases hr : runLines initState input with
  | none => rw [hr] at h; cases h
  | some s2 =>
    rw [hr] at h
    simp only [Option.map_some'] at h
    injection h with h2
    have hlen : s2.clauses.length = s2.weights.length :=
      runLines_len_inv input initState s2 hr rfl
    unfold finalize at h2
    by_cases hwf : s2.is_wcnf = true
    · rw [if_pos hwf] at h2
      injection h2 with e1 e2 e3
      refine ⟨s2, rfl, hlen, e2.symm, ?_, ?_⟩
      · rw [← e2]
        exact List.map_fst_zip _ _ (le_of_eq hlen)
      · rw [← e2]
        exact List.map_snd_zip _ _ (le_of_eq hlen.symm)
    · rw [if_neg hwf] at h2
      simp at h2

/-- Witness for C9_pairing on a one-clause WCNF input. -/
theorem C9_pairing_witness :
    ∃ s2, runLines initState ["p wcnf 1 1".toList, "2 1 0".toList] = some s2 ∧
      s2.clauses.length = s2.weights.length ∧
      [([(Var.new 0).pos_lit], 2)] = s2.clauses.zip s2.weights ∧
      ([([(Var.new 0).pos_lit], 2)] : List (List Lit × Nat)).map Prod.fst =
        s2.clauses ∧
      ([([(Var.new 0).pos_lit], 2)] : List (List Lit × Nat)).map Prod.snd =
        s2.weights :=
  C9_pairing ["p wcnf 1 1".toList, "2 1 0".toList] 1
    [([(Var.new 0).pos_lit], 2)] none (by decide)

/-- Claim C10: once a `p wcnf` header has set the WCNF flag it is never
cleared — the loop only ever keeps or sets it — so the result stays the
`Wcnf` variant; a later `p cnf` header overwrites `n_vars` and the
expected clause count but not the variant, as the concrete run with a
`p wcnf 1 2 3` header followed by `p cnf 5 1` shows: the result is
`Wcnf` with `n_vars = 5` and the original hard weight `3`. -/
theorem C10_wcnf_latched :
    (∀ (s : DState) (ls : List (List Char)) (s2 : DState),
        runLines s ls = some s2 → s.is_wcnf = true → s2.is_wcnf = true) ∧
    (∀ s : DState, s.is_wcnf = true →
        finalize s = Dimacs.Wcnf s.n_vars (s.clauses.zip s.weights) s.hard_weight) ∧
    parse_dimacs_from_buf_reader
        ["p wcnf 1 2 3".toList, "p cnf 5 1".toList, "1 0".toList] =
      some (Dimacs.Wcnf 5 [([], 1)] (some 3)) := by
  refine ⟨fun s ls s2 h hwf => runLines_wcnf_latch ls s s2 h hwf, ?_, by decide⟩
  intro s hwf
  unfold finalize
  rw [if_pos hwf]

/-- Witness for C10_wcnf_latched: a state with the flag set keeps it
through a later `p cnf` header. -/
theorem C10_wcnf_latched_witness :
    runLines (DState.mk 0 0 [] [] none true) ["p cnf 2 2".toList] =
      some (DState.mk 2 2 [] [] none true) ∧
    (DState.mk 2 2 [] [] none true).is_wcnf = true :=
  ⟨by decide,
   C10_wcnf_latched.1 (DState.mk 0 0 [] [] none true) ["p cnf 2 2".toList]
     (DState.mk 2 2 [] [] none true) (by decide) rfl⟩

end Solhop
